import Mathlib

/-!
Verification of the question/solution extraction pipeline
(`scripts/build-questions.ts`).

Strings are modelled as `List Char`.  JavaScript regular expressions used by
the script are translated into explicit character-list scanners.  The numeric
literal `0.35` of the script is modelled as the exact rational `7/20`.
-/

namespace Quiz

/-- The JavaScript whitespace class used by `\s`, `trim()` and friends. -/
def jsWs (c : Char) : Bool :=
  c = ' ' || c = '\t' || c = '\n' || c = '\r' ||
  c = Char.ofNat 0x0B || c = Char.ofNat 0x0C || c = Char.ofNat 0xA0 ||
  c = Char.ofNat 0x1680 ||
  (0x2000 ≤ c.toNat && c.toNat ≤ 0x200A) ||
  c = Char.ofNat 0x2028 || c = Char.ofNat 0x2029 || c = Char.ofNat 0x202F ||
  c = Char.ofNat 0x205F || c = Char.ofNat 0x3000 || c = Char.ofNat 0xFEFF

/-- Horizontal whitespace as matched by the script's `[\t ]` class. -/
def isHT (c : Char) : Bool := c = '\t' || c = ' '

/-- ASCII lower-casing, matching `toLowerCase` on the inputs in scope. -/
def lowerA (c : Char) : Char :=
  if 'A' ≤ c ∧ c ≤ 'Z' then Char.ofNat (c.toNat + 32) else c

/-- ASCII upper-casing, matching `toUpperCase` on the inputs in scope. -/
def upperA (c : Char) : Char :=
  if 'a' ≤ c ∧ c ≤ 'z' then Char.ofNat (c.toNat - 32) else c

def isAsciiDigit (c : Char) : Bool := '0' ≤ c && c ≤ '9'

def digitsToNat (l : List Char) : Nat :=
  l.foldl (fun n c => 10 * n + (c.toNat - 48)) 0

/-- `.replace(/ /g, " ")`. -/
def nbspToSpace (s : List Char) : List Char :=
  s.map (fun c => if c = Char.ofNat 0xA0 then ' ' else c)

/-- Collapse every maximal run of characters satisfying `p` to one space.
The flag records whether the previous character belonged to a run. -/
def collapseRunsAux (p : Char → Bool) : Bool → List Char → List Char
  | _, [] => []
  | inRun, c :: cs =>
    if p c then
      if inRun then collapseRunsAux p true cs
      else ' ' :: collapseRunsAux p true cs
    else c :: collapseRunsAux p false cs

/-- `.replace(/X+/g, " ")` for the character class `p`. -/
def collapseRuns (p : Char → Bool) (s : List Char) : List Char :=
  collapseRunsAux p false s

/-- Remove the maximal whitespace suffix (the right half of `trim()`). -/
def jsTrimRight : List Char → List Char
  | [] => []
  | c :: cs =>
    match jsTrimRight cs with
    | [] => if jsWs c then [] else [c]
    | t => c :: t

/-- JavaScript `String.prototype.trim`. -/
def jsTrim (s : List Char) : List Char := jsTrimRight (s.dropWhile jsWs)

/-- `.replace(/\r\n?/g, "\n")`. -/
def crlfToLf : List Char → List Char
  | [] => []
  | '\r' :: '\n' :: cs => '\n' :: crlfToLf cs
  | '\r' :: cs => '\n' :: crlfToLf cs
  | c :: cs => c :: crlfToLf cs

/-- `String.prototype.split` with a one-character separator. -/
def splitCh (sep : Char) : List Char → List (List Char)
  | [] => [[]]
  | c :: cs =>
    if c = sep then [] :: splitCh sep cs
    else
      match splitCh sep cs with
      | [] => [[c]]
      | t :: ts => (c :: t) :: ts

/-- `Array.prototype.join` with a one-character separator. -/
def joinWith (sep : Char) : List (List Char) → List Char
  | [] => []
  | [l] => l
  | l :: ls => l ++ sep :: joinWith sep ls

/-- `normalizeSpaces`: NBSP to space, collapse `[\t ]+` runs, trim. -/
def normalizeSpaces (s : List Char) : List Char :=
  jsTrim (collapseRuns isHT (nbspToSpace s))

/-- The replace of the regex (space star, newline, space star) by a newline,
as a one-pass state machine: `pend` counts buffered spaces whose fate is not
yet known, and the flag records that the previous character was a kept
newline, whose greedy match already claims the following spaces. -/
def stripNLAux : Nat → Bool → List Char → List Char
  | pend, afterNL, [] => if afterNL then [] else List.replicate pend ' '
  | pend, afterNL, c :: cs =>
    if afterNL then
      if c = ' ' then stripNLAux 0 true cs
      else if c = '\n' then '\n' :: stripNLAux 0 true cs
      else c :: stripNLAux 0 false cs
    else
      if c = ' ' then stripNLAux (pend + 1) false cs
      else if c = '\n' then '\n' :: stripNLAux 0 true cs
      else List.replicate pend ' ' ++ c :: stripNLAux 0 false cs

def stripNL (s : List Char) : List Char := stripNLAux 0 false s

/-- `normalizeTextBlock`: line endings to `\n`, collapse horizontal runs,
strip spaces around newlines, trim the block. -/
def normalizeTextBlock (s : List Char) : List Char :=
  jsTrim (stripNL (collapseRuns isHT (crlfToLf s)))

/-- Case-insensitive literal match at the head; yields the remainder. -/
def litMatchCI : List Char → List Char → Option (List Char)
  | [], s => some s
  | _ :: _, [] => none
  | p :: ps, c :: cs => if lowerA c = lowerA p then litMatchCI ps cs else none

/-- One or more whitespace characters, consumed greedily. -/
def wsPlus : List Char → Option (List Char)
  | [] => none
  | c :: cs => if jsWs c then some (cs.dropWhile jsWs) else none

/-- Does the predicate hold at some suffix position of the string?  This is
the unanchored regex search. -/
def anyPos (p : List Char → Bool) : List Char → Bool
  | [] => p []
  | c :: cs => p (c :: cs) || anyPos p (cs)

/-- Case-insensitive substring test. -/
def containsTokenCI (pat : List Char) (s : List Char) : Bool :=
  anyPos (fun suf => (litMatchCI pat suf).isSome) s

/-- The topic header regex: optional whitespace, `Topic`, whitespace, digits,
optional whitespace, `Question`, optional whitespace, a hash, optional
whitespace, one to four digits, optional whitespace, end of line. -/
def matchTopic (line : List Char) : Option Nat :=
  match litMatchCI ("topic".toList) (line.dropWhile jsWs) with
  | none => none
  | some s1 =>
    match wsPlus s1 with
    | none => none
    | some s2 =>
      let ds := s2.takeWhile isAsciiDigit
      if ds = [] then none
      else
        match litMatchCI ("question".toList)
            ((s2.dropWhile isAsciiDigit).dropWhile jsWs) with
        | none => none
        | some s4 =>
          match s4.dropWhile jsWs with
          | '#' :: s6 =>
            let s7 := s6.dropWhile jsWs
            let ds2 := s7.takeWhile isAsciiDigit
            if ds2 = [] ∨ 4 < ds2.length then none
            else if (s7.dropWhile isAsciiDigit).dropWhile jsWs = [] then
              some (digitsToNat ds2)
            else none
          | _ => none

/-- The leading-number header regex: optional whitespace, a nonzero number of
at most four digits, optional whitespace, one of the three delimiters,
optional whitespace, then the captured remainder of the line. -/
def matchStart (line : List Char) : Option (Nat × List Char) :=
  match line.dropWhile jsWs with
  | [] => none
  | c :: cs =>
    if '1' ≤ c ∧ c ≤ '9' then
      let ds := cs.takeWhile isAsciiDigit
      if 3 < ds.length then none
      else
        match (cs.dropWhile isAsciiDigit).dropWhile jsWs with
        | [] => none
        | b :: s2 =>
          if b = ']' ∨ b = ')' ∨ b = '.' then
            some (digitsToNat (c :: ds), s2.dropWhile jsWs)
          else none
    else none

/-- The solution block header regex: at line start, a nonzero number of at
most four digits followed directly by a closing bracket; the remainder is
stripped of the whitespace the regex consumed and then trimmed. -/
def matchSolStart (line : List Char) : Option (Nat × List Char) :=
  match line with
  | [] => none
  | c :: cs =>
    if '1' ≤ c ∧ c ≤ '9' then
      let ds := cs.takeWhile isAsciiDigit
      if 3 < ds.length then none
      else
        match cs.dropWhile isAsciiDigit with
        | ']' :: s2 => some (digitsToNat (c :: ds), jsTrim (s2.dropWhile jsWs))
        | _ => none
    else none

/-- The option label regex: a letter `A` to `J`, a dot or closing paren, and
at least one whitespace character; yields the letter and the remainder after
the greedy whitespace run. -/
def optLabel : List Char → Option (Char × List Char)
  | c :: d :: e :: rest =>
    if ('A' ≤ c ∧ c ≤ 'J') ∧ (d = '.' ∨ d = ')') ∧ jsWs e then
      some (c, (e :: rest).dropWhile jsWs)
    else none
  | _ => none

/-- `isOptionLine`: the label pattern holds on the trimmed line. -/
def isOptionLine (line : List Char) : Bool := (optLabel (jsTrim line)).isSome

/-- `extractOptionLabel`: the captured letter, from the trimmed line. -/
def extractOptionLabel (line : List Char) : Option Char :=
  (optLabel (jsTrim line)).map (fun x => x.1)

/-- The anchored replace of the label prefix by the empty string. -/
def stripOptionLabel (line : List Char) : List Char :=
  match optLabel line with
  | some x => x.2
  | none => line

/-- One attempt of the multiple-answer phrase at the head of the string:
`choose`, whitespace, then `two`, `three` or `all that apply`. -/
def multiAt (s : List Char) : Bool :=
  match litMatchCI ("choose".toList) s with
  | none => false
  | some r =>
    match wsPlus r with
    | none => false
    | some r2 =>
      (litMatchCI ("two".toList) r2).isSome ||
      (litMatchCI ("three".toList) r2).isSome ||
      (litMatchCI ("all that apply".toList) r2).isSome

/-- The case-insensitive search for the multiple-answer phrase. -/
def hasMultiChoose (s : List Char) : Bool := anyPos multiAt s

/-- A segmented block: an identifying number and its raw body lines. -/
structure Block where
  id : Nat
  lines : List (List Char)
deriving DecidableEq

/-- Whether one or several options are expected to be correct. -/
inductive QType where
  | single
  | multi
deriving DecidableEq

/-- The `QuizItem` record of the script. -/
structure QuizItem where
  id : Nat
  question : List Char
  answer : Option (List Char)
  notes : Option (List Char)
  options : Option (List (List Char))
  correct : Option (List Nat)
  qtype : Option QType
deriving DecidableEq

/-- The block-building loop of `splitPdfIntoQuestions`: blank lines are
dropped, a topic or leading-number header closes the current block and opens
a new one, and other lines join the current block. -/
def buildPdfBlocks : List (List Char) → Option Block → List Block
  | [], cur => cur.toList
  | l :: ls, cur =>
    let line := jsTrim l
    if line = [] then buildPdfBlocks ls cur
    else
      match matchTopic line with
      | some n => cur.toList ++ buildPdfBlocks ls (some ⟨n, []⟩)
      | none =>
        match matchStart line with
        | some x => cur.toList ++ buildPdfBlocks ls (some ⟨x.1, [x.2]⟩)
        | none =>
          match cur with
          | some b => buildPdfBlocks ls (some ⟨b.id, b.lines ++ [line]⟩)
          | none => buildPdfBlocks ls none

/-- Emit the buffered option when a label has been seen. -/
def flushOpt (lastLabel : Option Char) (buf : List (List Char)) :
    List (List Char) :=
  match lastLabel with
  | some _ => [normalizeTextBlock (joinWith ' ' buf)]
  | none => []

/-- The option accumulation loop: a labelled line flushes the buffer and
starts a new option from the stripped line; other lines are wrapped
continuations. -/
def parseOptionsAux :
    List (List Char) → Option Char → List (List Char) → List (List Char)
  | [], lab, buf => flushOpt lab buf
  | l :: ls, lab, buf =>
    match extractOptionLabel l with
    | some c => flushOpt lab buf ++ parseOptionsAux ls (some c) [stripOptionLabel l]
    | none => parseOptionsAux ls lab (buf ++ [l])

/-- Turn one block into a question record: header lines up to the first
option line form the question, the rest are parsed as options, and the type
is inferred from the multiple-answer phrase. -/
def blockToItem (b : Block) : QuizItem :=
  let optionStartIdx := b.lines.findIdx? (fun l => isOptionLine l)
  let headerLines :=
    match optionStartIdx with
    | some i => b.lines.take i
    | none => b.lines
  let rest :=
    match optionStartIdx with
    | some i => b.lines.drop i
    | none => []
  let question := normalizeTextBlock (joinWith ' ' headerLines)
  let options := parseOptionsAux rest none []
  ⟨b.id, question, none, none,
    (if options.length = 0 then none else some options), none,
    some (if hasMultiChoose question then QType.multi else QType.single)⟩

/-- Stable insertion of an item into an id-sorted list. -/
def insertById (x : QuizItem) : List QuizItem → List QuizItem
  | [] => [x]
  | y :: ys => if x.id < y.id then x :: y :: ys else y :: insertById x ys

/-- The stable ascending sort by `id`. -/
def sortById (l : List QuizItem) : List QuizItem :=
  l.foldl (fun acc x => insertById x acc) []

/-- `splitPdfIntoQuestions`. -/
def splitPdfIntoQuestions (pdfText : List Char) : List QuizItem :=
  let lines := (splitCh '\n' (crlfToLf pdfText)).map normalizeSpaces
  sortById ((buildPdfBlocks lines none).map blockToItem)

/-- The block-building loop of `splitSolutions`: lines are kept raw, and only
the solution header pattern opens a block. -/
def buildSolBlocks : List (List Char) → Option Block → List Block
  | [], cur => cur.toList
  | l :: ls, cur =>
    match matchSolStart l with
    | some x => cur.toList ++ buildSolBlocks ls (some ⟨x.1, [x.2]⟩)
    | none =>
      match cur with
      | some b => buildSolBlocks ls (some ⟨b.id, b.lines ++ [l]⟩)
      | none => buildSolBlocks ls none

/-- `splitSolutions`. -/
def splitSolutions (raw : List Char) : List Block :=
  buildSolBlocks (splitCh '\n' (crlfToLf raw)) none

/-- The extractor result for one solution block. -/
structure AnsInfo where
  answer : Option (List Char)
  notes : Option (List Char)
  letters : Option (List Char)
deriving DecidableEq

/-- Whitespace and then a dash or colon, as at the end of the indicator. -/
def indTail (s : List Char) : Option (List Char) :=
  match s.dropWhile jsWs with
  | '-' :: r => some r
  | ':' :: r => some r
  | _ => none

/-- An optional letter `s` and then the separator. -/
def sOptTail (r : List Char) : Option (List Char) :=
  (litMatchCI ("s".toList) r >>= indTail) <|> indTail r

/-- The anchored answer-indicator regex; yields the remainder after the
separator when the line starts with one of the accepted indicators. -/
def matchIndicator (s : List Char) : Option (List Char) :=
  (litMatchCI ("ans".toList) s >>= indTail) <|>
  (litMatchCI ("answer".toList) s >>= indTail) <|>
  (litMatchCI ("answers".toList) s >>= indTail) <|>
  (litMatchCI ("correct".toList) s >>= wsPlus >>= fun r =>
    litMatchCI ("answer".toList) r >>= sOptTail) <|>
  (litMatchCI ("correct".toList) s >>= wsPlus >>= fun r =>
    litMatchCI ("option".toList) r >>= sOptTail)

/-- The unanchored inline test: `answer`, whitespace, colon or dash. -/
def inlineAnsTest (l : List Char) : Bool :=
  anyPos (fun suf => (litMatchCI ("answer".toList) suf >>= indTail).isSome) l

/-- A colon or a dash, the separator class of the inline split. -/
def isSepCh (c : Char) : Bool := c = ':' || c = '-'

/-- Field one of the two-limit split on the separator class: the segment
between the first separator and the second one or the end; empty when the
line has no separator. -/
def fieldOne (l : List Char) : List Char :=
  ((l.dropWhile (fun c => !(isSepCh c))).drop 1).takeWhile (fun c => !(isSepCh c))

/-- The empty string is returned as an absent field. -/
def emptyToNone (l : List Char) : Option (List Char) :=
  if l = [] then none else some l

/-- Does the line mention `correct` or `ans` (case-insensitively)? -/
def relatedLine (l : List Char) : Bool :=
  containsTokenCI ("correct".toList) l || containsTokenCI ("ans".toList) l

/-- Word characters of the regex word-boundary class. -/
def isWordChar (c : Char) : Bool :=
  ('A' ≤ c && c ≤ 'Z') || ('a' ≤ c && c ≤ 'z') ||
  ('0' ≤ c && c ≤ '9') || c = '_'

/-- Scan for isolated letters `A` to `J` with word boundaries on both sides;
the flag records whether the previous character was a word character. -/
def lineLettersAux : Bool → List Char → List Char
  | _, [] => []
  | prevW, c :: cs =>
    let boundaryAfter :=
      match cs with
      | [] => true
      | d :: _ => !(isWordChar d)
    if ('A' ≤ c ∧ c ≤ 'J') ∧ prevW = false ∧ boundaryAfter = true then
      c :: lineLettersAux (isWordChar c) cs
    else lineLettersAux (isWordChar c) cs

/-- All isolated candidate letters of one line. -/
def lineLetters (s : List Char) : List Char := lineLettersAux false s

/-- Insertion-ordered set insertion, as in a JavaScript `Set`. -/
def addUniqueCh (acc : List Char) (c : Char) : List Char :=
  if c ∈ acc then acc else acc ++ [c]

/-- `extractAnswerInfo`: the three-tier answer and notes resolution followed
by the letter-candidate collection. -/
def extractAnswerInfo (lines : List (List Char)) : AnsInfo :=
  let ansNotes : Option (List Char) × Option (List Char) :=
    match lines.findIdx? (fun l => (matchIndicator (jsTrim l)).isSome) with
    | some i =>
      let line := lines.getD i []
      let ansLine := jsTrim (match matchIndicator line with
        | some r => r
        | none => line)
      (some (normalizeTextBlock ansLine),
       emptyToNone (normalizeTextBlock (joinWith '\n' (lines.drop (i + 1)))))
    | none =>
      match lines.findIdx? inlineAnsTest with
      | some i =>
        (some (normalizeTextBlock (fieldOne (lines.getD i []))),
         emptyToNone (normalizeTextBlock (joinWith '\n' (lines.drop (i + 1)))))
      | none =>
        (match lines.find? (fun l => !(jsTrim l = [])) with
         | some f => some (normalizeTextBlock f)
         | none => none,
         emptyToNone (normalizeTextBlock (joinWith '\n' (lines.drop 1))))
  let notes := ansNotes.2
  let cands1 := lines.foldl
    (fun acc l =>
      if relatedLine l then (lineLetters (l.map upperA)).foldl addUniqueCh acc
      else acc) []
  let cands :=
    match notes with
    | some n =>
      ((((splitCh '\n' n).map jsTrim).filter
          (fun l => (optLabel l).isSome)).map (fun l => l.headD 'A')).foldl
        addUniqueCh cands1
    | none => cands1
  ⟨ansNotes.1, notes, if cands = [] then none else some cands⟩

/-- Insertion-ordered set insertion on numbers. -/
def addUniqueNat (acc : List Nat) (n : Nat) : List Nat :=
  if n ∈ acc then acc else acc ++ [n]

def dedupNat (l : List Nat) : List Nat := l.foldl addUniqueNat []

def insertNat (x : Nat) : List Nat → List Nat
  | [] => [x]
  | y :: ys => if x < y then x :: y :: ys else y :: insertNat x ys

/-- The ascending numeric sort of the index list. -/
def sortNat (l : List Nat) : List Nat :=
  l.foldl (fun acc x => insertNat x acc) []

/-- `mapLettersToIndexes`: letter codes relative to `A`, kept when in range,
deduplicated and sorted ascending. -/
def mapLettersToIndexes (letters : Option (List Char))
    (options : Option (List (List Char))) : Option (List Nat) :=
  match letters, options with
  | some ls, some opts =>
    if opts.length = 0 then none
    else
      let idxs := (ls.map (fun c => ((upperA c).toNat : Int) - 65)).filter
        (fun i => 0 ≤ i ∧ i < (opts.length : Int))
      if idxs = [] then none
      else some (sortNat (dedupNat (idxs.map Int.toNat)))
  | _, _ => none

/-- Lower-case alphanumeric characters, kept by the fuzzy normalizer. -/
def isLowAlnum (c : Char) : Bool :=
  ('a' ≤ c && c ≤ 'z') || ('0' ≤ c && c ≤ '9')

/-- The fuzzy normalizer: lower-case, non-alphanumeric runs to one space,
trim. -/
def normFz (s : List Char) : List Char :=
  jsTrim (collapseRuns (fun c => !(isLowAlnum c)) (s.map lowerA))

/-- Insertion-ordered set insertion on token strings. -/
def addUniqueTok (acc : List (List Char)) (t : List Char) :
    List (List Char) :=
  if t ∈ acc then acc else acc ++ [t]

/-- The token set of a normalized string: split on spaces, insertion-ordered
deduplication. -/
def quizTokens (s : List Char) : List (List Char) :=
  (splitCh ' ' s).foldl addUniqueTok []

/-- The token-overlap count of one normalized option against the fixed
answer token set. -/
def interCount (aTok : List (List Char)) (onorm : List Char) : Nat :=
  ((quizTokens onorm).filter (fun t => decide (t ∈ aTok))).length

/-- The guarded denominator of one normalized option's score. -/
def denCount (onorm : List Char) : Nat := max 1 (quizTokens onorm).length

/-- One option's overlap score, as the exact rational the script's floating
division approximates. -/
def optionScore (aTok : List (List Char)) (onorm : List Char) : ℚ :=
  (interCount aTok onorm : ℚ) / (denCount onorm : ℚ)

/-- The best-score loop of `fuzzyMatchAnswerToOptions`: options whose
normalization is empty are skipped; a strictly greater score takes over the
best index.  The running best score is kept as the exact fraction `bn` over
`bd` with `bd` positive, and compared by cross-multiplication. -/
def fuzzyAux (aTok : List (List Char)) :
    List (List Char) → Nat → Int → Nat → Nat → Int × Nat × Nat
  | [], _, bi, bn, bd => (bi, bn, bd)
  | o :: os, i, bi, bn, bd =>
    let onorm := normFz o
    if onorm = [] then fuzzyAux aTok os (i + 1) bi bn bd
    else
      let inter := interCount aTok onorm
      let den := denCount onorm
      if bn * den < inter * bd then fuzzyAux aTok os (i + 1) (i : Int) inter den
      else fuzzyAux aTok os (i + 1) bi bn bd

/-- `fuzzyMatchAnswerToOptions`; the threshold `0.35` is modelled by the
exact rational seven twentieths, compared by cross-multiplication. -/
def fuzzyMatchAnswerToOptions (answer : Option (List Char))
    (options : Option (List (List Char))) : Option (List Nat) :=
  match answer, options with
  | some a, some opts =>
    if a = [] ∨ opts.length = 0 then none
    else
      let res := fuzzyAux (quizTokens (normFz a)) opts 0 (-1) 0 1
      if 7 * res.2.2 ≤ 20 * res.2.1 ∧ 0 ≤ res.1 then some [res.1.toNat]
      else none
  | _, _ => none

/-- The solution lookup map: per-block extraction with last-write-wins on
duplicate ids. -/
def solLookup (blocks : List Block) (n : Nat) : Option AnsInfo :=
  (blocks.reverse.find? (fun b => b.id == n)).map
    (fun b => extractAnswerInfo b.lines)

/-- Does the merged record still need a synthesized answer?  An absent or
empty or one-character answer does. -/
def needSynth (a : Option (List Char)) : Bool :=
  match a with
  | none => true
  | some s => s.length < 2

/-- The reconciliation of one question record with its solution lookup. -/
def mergeItem (sol : Option AnsInfo) (x : QuizItem) : QuizItem :=
  let answer := sol.bind (fun s => s.answer)
  let notes := sol.bind (fun s => s.notes)
  let letters := sol.bind (fun s => s.letters)
  let correct :=
    match mapLettersToIndexes letters x.options with
    | some l => some l
    | none => fuzzyMatchAnswerToOptions answer x.options
  let qt :=
    match x.qtype with
    | some t => t
    | none =>
      if (match correct with
          | some l => decide (1 < l.length)
          | none => false) = true then QType.multi
      else QType.single
  let answerText :=
    match correct, x.options with
    | some l, some os =>
      if needSynth answer ∧ 0 < l.length then
        some (joinWith '\n' (l.map
          (fun i => Char.ofNat (65 + i) :: '.' :: ' ' :: os.getD i [])))
      else answer
    | _, _ => answer
  ⟨x.id, x.question, answerText, notes, x.options, correct, some qt⟩

/-- The whole pipeline: segment both sources, then merge per question. -/
def mergedItems (pdfText solText : List Char) : List QuizItem :=
  let blocks := splitSolutions solText
  (splitPdfIntoQuestions pdfText).map
    (fun it => mergeItem (solLookup blocks it.id) it)

/-- Spec-side score of one raw option against the answer token set: the
token-overlap ratio, an option normalizing to the empty string scoring
zero. -/
def specScore (aTok : List (List Char)) (o : List Char) : ℚ :=
  if normFz o = [] then 0 else optionScore aTok (normFz o)

/-- Spec-side fuzzy matching, worded from the specification: normalize both
sides, tokenize on spaces, score each option by token-overlap ratio, pick
the option with the strictest-greatest score (the first index attaining the
maximum), and accept exactly when the score is at least seven twentieths. -/
def fuzzySpec (a : List Char) (opts : List (List Char)) : Option (List Nat) :=
  let aTok := quizTokens (normFz a)
  let scores := opts.map (specScore aTok)
  let m := scores.foldl max 0
  if (7 : ℚ) / 20 ≤ m then some [scores.findIdx (fun sc => decide (m ≤ sc))]
  else none

/-- No two adjacent spaces occur in the string. -/
def noTwoSp : List Char → Bool
  | [] => true
  | [_] => true
  | a :: b :: t => !(a = ' ' && b = ' ') && noTwoSp (b :: t)

theorem mem_insertById {x z : QuizItem} :
    ∀ {l : List QuizItem}, z ∈ insertById x l ↔ z = x ∨ z ∈ l := by
  intro l
  induction l with
  | nil => simp [insertById]
  | cons y ys ih =>
    simp only [insertById]
    split
    · simp only [List.mem_cons]
    · simp only [List.mem_cons, ih]
      tauto

theorem pairwise_insertById {x : QuizItem} {l : List QuizItem}
    (h : l.Pairwise (fun a b => a.id ≤ b.id)) :
    (insertById x l).Pairwise (fun a b => a.id ≤ b.id) := by
  induction l with
  | nil => simp [insertById]
  | cons y ys ih =>
    rw [List.pairwise_cons] at h
    obtain ⟨hy, hys⟩ := h
    simp only [insertById]
    split
    · rename_i hlt
      refine List.pairwise_cons.mpr ⟨?_, List.pairwise_cons.mpr ⟨hy, hys⟩⟩
      intro z hz
      rcases List.mem_cons.mp hz with rfl | hz2
      · omega
      · exact le_trans (le_of_lt hlt) (hy z hz2)
    · rename_i hge
      refine List.pairwise_cons.mpr ⟨?_, ih hys⟩
      intro z hz
      rcases mem_insertById.mp hz with rfl | hz2
      · omega
      · exact hy z hz2

theorem pairwise_sortById_aux :
    ∀ (l acc : List QuizItem), acc.Pairwise (fun a b => a.id ≤ b.id) →
      (l.foldl (fun acc x => insertById x acc) acc).Pairwise
        (fun a b => a.id ≤ b.id) := by
  intro l
  induction l with
  | nil => intro acc h; simpa using h
  | cons x xs ih => intro acc h; exact ih _ (pairwise_insertById h)

theorem pairwise_sortById (l : List QuizItem) :
    (sortById l).Pairwise (fun a b => a.id ≤ b.id) :=
  pairwise_sortById_aux l [] (by simp)

theorem mem_sortById_aux :
    ∀ (l acc : List QuizItem) {z : QuizItem},
      z ∈ l.foldl (fun acc x => insertById x acc) acc → z ∈ acc ∨ z ∈ l := by
  intro l
  induction l with
  | nil => intro acc z h; exact Or.inl h
  | cons x xs ih =>
    intro acc z h
    rcases ih _ h with hin | hin
    · rcases mem_insertById.mp hin with rfl | hacc
      · right; simp
      · left; exact hacc
    · right; simp [hin]

theorem mem_sortById {z : QuizItem} {l : List QuizItem}
    (h : z ∈ sortById l) : z ∈ l := by
  rcases mem_sortById_aux l [] h with h2 | h2
  · simp at h2
  · exact h2

theorem mem_addUniqueNat {acc : List Nat} {x z : Nat}
    (h : z ∈ addUniqueNat acc x) : z ∈ acc ∨ z = x := by
  unfold addUniqueNat at h
  split at h
  · exact Or.inl h
  · rcases List.mem_append.mp h with h2 | h2
    · exact Or.inl h2
    · simp at h2
      exact Or.inr h2

theorem mem_dedupNat_aux :
    ∀ (l acc : List Nat) {z : Nat},
      z ∈ l.foldl addUniqueNat acc → z ∈ acc ∨ z ∈ l := by
  intro l
  induction l with
  | nil => intro acc z h; exact Or.inl h
  | cons x xs ih =>
    intro acc z h
    rcases ih _ h with hin | hin
    · rcases mem_addUniqueNat hin with h2 | rfl
      · exact Or.inl h2
      · right; simp
    · right; simp [hin]

theorem mem_dedupNat {z : Nat} {l : List Nat} (h : z ∈ dedupNat l) : z ∈ l := by
  rcases mem_dedupNat_aux l [] h with h2 | h2
  · simp at h2
  · exact h2

theorem mem_insertNat {x z : Nat} :
    ∀ {l : List Nat}, z ∈ insertNat x l → z = x ∨ z ∈ l := by
  intro l
  induction l with
  | nil => intro h; simpa [insertNat] using h
  | cons y ys ih =>
    intro h
    simp only [insertNat] at h
    split at h
    · simpa using h
    · rcases List.mem_cons.mp h with rfl | h2
      · right; simp
      · rcases ih h2 with h3 | h3
        · exact Or.inl h3
        · right; simp [h3]

theorem mem_sortNat_aux :
    ∀ (l acc : List Nat) {z : Nat},
      z ∈ l.foldl (fun acc x => insertNat x acc) acc → z ∈ acc ∨ z ∈ l := by
  intro l
  induction l with
  | nil => intro acc z h; exact Or.inl h
  | cons x xs ih =>
    intro acc z h
    rcases ih _ h with hin | hin
    · rcases mem_insertNat hin with rfl | hacc
      · right; simp
      · left; exact hacc
    · right; simp [hin]

theorem mem_sortNat {z : Nat} {l : List Nat} (h : z ∈ sortNat l) : z ∈ l := by
  rcases mem_sortNat_aux l [] h with h2 | h2
  · simp at h2
  · exact h2

theorem mergeItem_id (sol : Option AnsInfo) (x : QuizItem) :
    (mergeItem sol x).id = x.id := rfl

theorem mergeItem_question (sol : Option AnsInfo) (x : QuizItem) :
    (mergeItem sol x).question = x.question := rfl

theorem mergeItem_options (sol : Option AnsInfo) (x : QuizItem) :
    (mergeItem sol x).options = x.options := rfl

theorem mergeItem_correct (sol : Option AnsInfo) (x : QuizItem) :
    (mergeItem sol x).correct =
      (match mapLettersToIndexes (sol.bind (fun s => s.letters)) x.options with
       | some l => some l
       | none =>
         fuzzyMatchAnswerToOptions (sol.bind (fun s => s.answer)) x.options) :=
  rfl

theorem mem_merged {q s : List Char} {it : QuizItem}
    (h : it ∈ mergedItems q s) :
    ∃ x, x ∈ splitPdfIntoQuestions q ∧
      it = mergeItem (solLookup (splitSolutions s) x.id) x := by
  simp only [mergedItems, List.mem_map] at h
  obtain ⟨x, hx, heq⟩ := h
  exact ⟨x, hx, heq.symm⟩

theorem mem_splitPdf {q : List Char} {x : QuizItem}
    (h : x ∈ splitPdfIntoQuestions q) : ∃ b, x = blockToItem b := by
  have h2 := mem_sortById h
  simp only [List.mem_map] at h2
  obtain ⟨b, _, heq⟩ := h2
  exact ⟨b, heq.symm⟩

theorem merged_qtype {q s : List Char} {it : QuizItem}
    (h : it ∈ mergedItems q s) :
    it.qtype =
      some (if hasMultiChoose it.question then QType.multi else QType.single) := by
  obtain ⟨x, hx, rfl⟩ := mem_merged h
  obtain ⟨b, rfl⟩ := mem_splitPdf hx
  rfl

/-- Claim C1 (counterexample): on this question source the pipeline emits
two items whose ids are both zero, so the output ids are neither unique nor
all positive. -/
theorem c1_counterexample :
    ¬ ((((mergedItems ("Topic 1Question #0\nfoo\nTopic 1Question #0\nbar".toList)
            ("".toList)).map (fun it => it.id)).Nodup) ∧
        ∀ i ∈ (mergedItems ("Topic 1Question #0\nfoo\nTopic 1Question #0\nbar".toList)
            ("".toList)).map (fun it => it.id), 0 < i) := by decide

/-- Claim C1 (amended): for every pair of question-source and
solution-source texts the final output is sorted non-decreasingly by `id`;
ids are not in general unique or positive. -/
theorem c1_sorted_amended (q s : List Char) :
    (mergedItems q s).Pairwise (fun a b => a.id ≤ b.id) := by
  have hp := pairwise_sortById
    ((buildPdfBlocks ((splitCh '\n' (crlfToLf q)).map normalizeSpaces) none).map
      blockToItem)
  simp only [mergedItems]
  rw [List.pairwise_map]
  exact hp

/-- Claim C5: a question id with no matching solution block still yields an
output record, with `answer`, `notes` and `correct` all absent; and the
pipeline emits exactly one output record per question record. -/
theorem c5_unmatched :
    (∀ (q s : List Char) (it : QuizItem), it ∈ mergedItems q s →
      (∀ b ∈ splitSolutions s, b.id ≠ it.id) →
      it.answer = none ∧ it.notes = none ∧ it.correct = none) ∧
    (∀ q s : List Char,
      (mergedItems q s).length = (splitPdfIntoQuestions q).length) := by
  constructor
  · intro q s it h hnone
    obtain ⟨x, hx, rfl⟩ := mem_merged h
    have hsol : solLookup (splitSolutions s) x.id = none := by
      unfold solLookup
      have hfind : (splitSolutions s).reverse.find? (fun b => b.id == x.id) = none := by
        rw [List.find?_eq_none]
        intro b hb
        have hne := hnone b (List.mem_reverse.mp hb)
        rw [mergeItem_id] at hne
        simp [hne]
      rw [hfind]
      rfl
    rw [hsol]
    exact ⟨rfl, rfl, rfl⟩
  · intro q s
    simp [mergedItems]

/-- Claim C5 (witness). -/
theorem c5_witness :
    (⟨5, "Q".toList, none, none, some ["x".toList], none,
        some QType.single⟩ : QuizItem).answer = none ∧
    (⟨5, "Q".toList, none, none, some ["x".toList], none,
        some QType.single⟩ : QuizItem).notes = none ∧
    (⟨5, "Q".toList, none, none, some ["x".toList], none,
        some QType.single⟩ : QuizItem).correct = none :=
  c5_unmatched.1 ("5] Q\nA. x".toList) ("".toList) _ (by decide) (by decide)

/-- Claim C6 (counterexample): the question source consisting of the single
line `3]` yields an item whose `question` is the empty string. -/
theorem c6_counterexample :
    ∃ it ∈ mergedItems ("3]".toList) ("".toList), it.question = [] := by decide

/-- Claim C6 (amended): every emitted item's `question` is the block
normalization of its header text, which may be empty. -/
theorem c6_amended (q s : List Char) (it : QuizItem) (h : it ∈ mergedItems q s) :
    ∃ hdr : List (List Char),
      it.question = normalizeTextBlock (joinWith ' ' hdr) := by
  obtain ⟨x, hx, rfl⟩ := mem_merged h
  obtain ⟨b, rfl⟩ := mem_splitPdf hx
  exact ⟨_, rfl⟩

/-- Claim C6 (witness). -/
theorem c6_witness :
    ∃ hdr, (⟨3, [], none, none, none, none,
        some QType.single⟩ : QuizItem).question =
      normalizeTextBlock (joinWith ' ' hdr) :=
  c6_amended ("3]".toList) ("".toList) _ (by decide)

/-- Claim C7 (counterexample): a question whose stem contains the phrase
`select all that apply` is still typed `single`, because the code only
recognizes the phrase when it is introduced by `choose`. -/
theorem c7_counterexample :
    ¬ (∀ it ∈ mergedItems
          ("1] Configure the stack. Select all that apply.\nA. x\nB. y".toList)
          ("".toList),
        containsTokenCI ("select all that apply".toList) it.question = true →
        it.qtype = some QType.multi) := by decide

/-- Claim C7 (amended): the inferred type is `multi` exactly when the
normalized question matches `choose` followed by whitespace and one of
`two`, `three` or `all that apply` (case-insensitively), defaulting to
`single`; a stem containing `(Choose two.)` yields `multi` even with no
solution match. -/
theorem c7_amended :
    (∀ (q s : List Char) (it : QuizItem), it ∈ mergedItems q s →
      it.qtype =
        some (if hasMultiChoose it.question then QType.multi else QType.single)) ∧
    (mergedItems ("1] Pick stuff. (Choose two.)\nA. x\nB. y".toList)
        ("".toList)).map (fun it => it.qtype) = [some QType.multi] :=
  ⟨fun _ _ _ h => merged_qtype h, by decide⟩

/-- Claim C7 (witness). -/
theorem c7_witness :
    (⟨3, [], none, none, none, none, some QType.single⟩ : QuizItem).qtype =
      some (if hasMultiChoose
          (⟨3, [], none, none, none, none,
            some QType.single⟩ : QuizItem).question
        then QType.multi else QType.single) :=
  c7_amended.1 ("3]".toList) ("".toList) _ (by decide)

/-- Claim C10: every output item's type is the phrase-based inference from
its question text; every question record carries a type, so the reconciler
fallback is never exercised; and an output item can be `single` while
`correct` has two entries. -/
theorem c10_type_inference :
    (∀ (q s : List Char) (it : QuizItem), it ∈ mergedItems q s →
      it.qtype =
        some (if hasMultiChoose it.question then QType.multi else QType.single)) ∧
    (∀ (q : List Char) (x : QuizItem),
      x ∈ splitPdfIntoQuestions q → x.qtype ≠ none) ∧
    (mergedItems ("7] Stuff\nA. alpha\nB. beta".toList)
        ("7] answer: A B".toList)).map (fun it => (it.qtype, it.correct)) =
      [(some QType.single, some [0, 1])] := by
  refine ⟨fun _ _ _ h => merged_qtype h, ?_, by decide⟩
  intro q x hx
  obtain ⟨b, rfl⟩ := mem_splitPdf hx
  simp [blockToItem]

theorem mapLetters_none (letters : Option (List Char)) :
    mapLettersToIndexes letters none = none := by
  cases letters <;> rfl

theorem fuzzy_none_options (a : Option (List Char)) :
    fuzzyMatchAnswerToOptions a none = none := by
  cases a <;> rfl

theorem fuzzy_none_answer (o : Option (List (List Char))) :
    fuzzyMatchAnswerToOptions none o = none := rfl

theorem mapLetters_bound {letters : Option (List Char)}
    {opts : List (List Char)} {l : List Nat}
    (h : mapLettersToIndexes letters (some opts) = some l) :
    ∀ i ∈ l, i < opts.length := by
  match letters with
  | none => simp [mapLettersToIndexes] at h
  | some ls =>
    simp only [mapLettersToIndexes] at h
    split at h
    · exact absurd h (by simp)
    · split at h
      · exact absurd h (by simp)
      · injection h with h2
        subst h2
        intro i hi
        have h3 := mem_dedupNat (mem_sortNat hi)
        rw [List.mem_map] at h3
        obtain ⟨j, hj, rfl⟩ := h3
        rw [List.mem_filter] at hj
        have hcond := hj.2
        simp only [decide_eq_true_eq] at hcond
        omega

theorem fuzzyAux_fst_lt (aTok : List (List Char)) :
    ∀ (os : List (List Char)) (n : Nat) (bi : Int) (bn bd : Nat),
      bi < (n : Int) →
      (fuzzyAux aTok os n bi bn bd).1 < (n : Int) + os.length := by
  intro os
  induction os with
  | nil =>
    intro n bi bn bd h
    simpa [fuzzyAux] using h
  | cons o os ih =>
    intro n bi bn bd h
    simp only [fuzzyAux, List.length_cons]
    split
    · have h2 := ih (n + 1) bi bn bd (by push_cast; omega)
      push_cast at h2 ⊢
      omega
    · split
      · have h2 := ih (n + 1) (n : Int) (interCount aTok (normFz o))
          (denCount (normFz o)) (by push_cast; omega)
        push_cast at h2 ⊢
        omega
      · have h2 := ih (n + 1) bi bn bd (by push_cast; omega)
        push_cast at h2 ⊢
        omega

theorem fuzzy_bound {a : List Char} {opts : List (List Char)} {l : List Nat}
    (h : fuzzyMatchAnswerToOptions (some a) (some opts) = some l) :
    ∀ i ∈ l, i < opts.length := by
  simp only [fuzzyMatchAnswerToOptions] at h
  split at h
  · exact absurd h (by simp)
  · split at h
    · rename_i hcond
      injection h with h2
      subst h2
      intro i hi
      simp only [List.mem_singleton] at hi
      subst hi
      have hlt := fuzzyAux_fst_lt (quizTokens (normFz a)) opts 0 (-1) 0 1
        (by omega)
      have hge := hcond.2
      push_cast at hlt
      omega
    · exact absurd h (by simp)

/-- Claim C3: whenever `correct` is present on an output item, `options` is
present and every index in `correct` is within bounds, on both the letter
mapping and the fuzzy matching path. -/
theorem c3_correct_bounds (q s : List Char) (it : QuizItem)
    (h : it ∈ mergedItems q s) (l : List Nat) (hc : it.correct = some l) :
    ∃ os, it.options = some os ∧ ∀ i ∈ l, i < os.length := by
  obtain ⟨x, hx, rfl⟩ := mem_merged h
  rw [mergeItem_correct] at hc
  rw [mergeItem_options]
  cases hxo : x.options with
  | none =>
    rw [hxo] at hc
    simp only [mapLetters_none, fuzzy_none_options] at hc
    cases hc
  | some opts =>
    rw [hxo] at hc
    refine ⟨opts, rfl, ?_⟩
    cases hml : mapLettersToIndexes
        ((solLookup (splitSolutions s) x.id).bind (fun s => s.letters))
        (some opts) with
    | some l0 =>
      simp only [hml] at hc
      cases hc
      exact mapLetters_bound hml
    | none =>
      simp only [hml] at hc
      cases ha : (solLookup (splitSolutions s) x.id).bind (fun s => s.answer) with
      | none => rw [ha, fuzzy_none_answer] at hc; cases hc
      | some a0 =>
        rw [ha] at hc
        exact fuzzy_bound hc

/-- Claim C3 (witness). -/
theorem c3_witness :
    ∃ os, (⟨5, "Which service provides object storage?".toList,
        some ("B. S3".toList),
        some ("S3 is purpose-built object storage.".toList),
        some ["EBS".toList, "S3".toList, "EFS".toList], some [1],
        some QType.single⟩ : QuizItem).options = some os ∧
      ∀ i ∈ [1], i < os.length :=
  c3_correct_bounds
    ("5] Which service provides object storage?\nA. EBS\nB. S3\nC. EFS".toList)
    ("5] ans- B\nS3 is purpose-built object storage.".toList) _ (by decide)
    [1] (by decide)

/-- Claim C10 (witness). -/
theorem c10_witness :
    (⟨7, "Stuff".toList, some ("A B".toList), none,
        some ["alpha".toList, "beta".toList], some [0, 1],
        some QType.single⟩ : QuizItem).qtype =
      some (if hasMultiChoose
          (⟨7, "Stuff".toList, some ("A B".toList), none,
            some ["alpha".toList, "beta".toList], some [0, 1],
            some QType.single⟩ : QuizItem).question
        then QType.multi else QType.single) :=
  c10_type_inference.1 ("7] Stuff\nA. alpha\nB. beta".toList)
    ("7] answer: A B".toList) _ (by decide)

theorem count_nl_nbsp (s : List Char) :
    (nbspToSpace s).count '\n' = s.count '\n' := by
  induction s with
  | nil => rfl
  | cons c cs ih =>
    simp only [nbspToSpace, List.map_cons, List.count_cons] at *
    by_cases hc : c = Char.ofNat 0xA0
    · subst hc
      simp [ih]
    · simp [hc, ih]

theorem count_nl_collapseAux (p : Char → Bool) (hp : p '\n' = false) :
    ∀ (l : List Char) (b : Bool),
      (collapseRunsAux p b l).count '\n' = l.count '\n' := by
  intro l
  induction l with
  | nil => intro b; rfl
  | cons c cs ih =>
    intro b
    simp only [collapseRunsAux]
    by_cases hc : p c = true
    · have hcn : (c == '\n') = false := by
        by_cases h : c = '\n'
        · subst h
          rw [hp] at hc
          cases hc
        · simp [h]
      cases b
      · simp [hc, List.count_cons, ih, hcn]
      · simp [hc, List.count_cons, ih, hcn]
    · rw [Bool.not_eq_true] at hc
      simp [hc, List.count_cons, ih]

theorem jsTrimRight_decomp :
    ∀ l : List Char, ∃ suf, l = jsTrimRight l ++ suf ∧
      ∀ c ∈ suf, jsWs c = true := by
  intro l
  induction l with
  | nil => exact ⟨[], rfl, by simp⟩
  | cons c cs ih =>
    obtain ⟨suf, hsuf, hws⟩ := ih
    cases h : jsTrimRight cs with
    | nil =>
      rw [h] at hsuf
      simp only [List.nil_append] at hsuf
      by_cases hc : jsWs c = true
      · refine ⟨c :: cs, ?_, ?_⟩
        · simp [jsTrimRight, h, hc]
        · intro d hd
          rcases List.mem_cons.mp hd with rfl | hd2
          · exact hc
          · exact hws d (hsuf ▸ hd2)
      · refine ⟨suf, ?_, hws⟩
        simp only [jsTrimRight, h]
        rw [Bool.not_eq_true] at hc
        simp [hc]
        exact hsuf
    | cons t ts =>
      rw [h] at hsuf
      refine ⟨suf, ?_, hws⟩
      simp only [jsTrimRight, h]
      simpa using hsuf

theorem jsTrim_decomp (l : List Char) :
    ∃ pre suf, l = pre ++ jsTrim l ++ suf ∧
      (∀ c ∈ pre, jsWs c = true) ∧ (∀ c ∈ suf, jsWs c = true) := by
  obtain ⟨suf, hsuf, hws⟩ := jsTrimRight_decomp (l.dropWhile jsWs)
  refine ⟨l.takeWhile jsWs, suf, ?_, ?_, hws⟩
  · conv_lhs => rw [← List.takeWhile_append_dropWhile jsWs l]
    rw [List.append_assoc]
    exact congrArg _ hsuf
  · intro c hc
    exact List.mem_takeWhile_imp hc

/-- Claim C9 (counterexample): `normalizeSpaces` does not preserve newlines:
the trim removes a newline standing at the end of the string. -/
theorem c9_counterexample :
    '\n' ∈ ("\n".toList) ∧ '\n' ∉ normalizeSpaces ("\n".toList) := by decide

/-- Claim C9 (amended): `normalizeSpaces` is the trim of the
horizontal-whitespace collapse: the collapse stage preserves every newline
(the newline count is unchanged), and the trim removes only whitespace
characters, including newlines, from the two ends. -/
theorem c9_amended (s : List Char) :
    ∃ pre suf,
      collapseRuns isHT (nbspToSpace s) = pre ++ normalizeSpaces s ++ suf ∧
      (∀ c ∈ pre, jsWs c = true) ∧ (∀ c ∈ suf, jsWs c = true) ∧
      (collapseRuns isHT (nbspToSpace s)).count '\n' = s.count '\n' := by
  obtain ⟨pre, suf, h1, h2, h3⟩ := jsTrim_decomp (collapseRuns isHT (nbspToSpace s))
  refine ⟨pre, suf, h1, h2, h3, ?_⟩
  rw [show collapseRuns isHT (nbspToSpace s) = collapseRunsAux isHT false (nbspToSpace s) from rfl]
  rw [count_nl_collapseAux isHT (by decide), count_nl_nbsp]

theorem findIdx?_none {α : Type} {p : α → Bool} :
    ∀ (l : List α) (i : Nat), (∀ x ∈ l, p x = false) →
      List.findIdx? p l i = none := by
  intro l
  induction l with
  | nil => intro i _; simp [List.findIdx?_nil]
  | cons x xs ih =>
    intro i h
    rw [List.findIdx?_cons, h x (by simp)]
    simp only [Bool.false_eq_true, if_false]
    exact ih _ (fun y hy => h y (by simp [hy]))

theorem findIdx?_some {α : Type} {p : α → Bool} (d : α) :
    ∀ (l : List α) (j i : Nat),
      (∀ k, k < j → p (l.getD k d) = false) → j < l.length →
      p (l.getD j d) = true → List.findIdx? p l i = some (i + j) := by
  intro l
  induction l with
  | nil => intro j i _ h2 _; simp at h2
  | cons x xs ih =>
    intro j i h1 h2 h3
    rw [List.findIdx?_cons]
    cases j with
    | zero =>
      rw [List.getD_cons_zero] at h3
      simp [h3]
    | succ j =>
      have hx : p x = false := by
        have := h1 0 (by omega)
        rwa [List.getD_cons_zero] at this
      rw [hx]
      simp only [Bool.false_eq_true, if_false]
      have hrec := ih j (i + 1)
        (fun k hk => by
          have := h1 (k + 1) (by omega)
          rwa [List.getD_cons_succ] at this)
        (by simpa using h2)
        (by rwa [List.getD_cons_succ] at h3)
      rw [hrec]
      congr 1
      omega

theorem dropWhile_prefix_true {α : Type} (p : α → Bool) :
    ∀ (pre : List α) (c : α) (mid : List α),
      (∀ x ∈ pre, p x = true) → p c = false →
      (pre ++ c :: mid).dropWhile p = c :: mid := by
  intro pre
  induction pre with
  | nil =>
    intro c mid _ hc
    simp [List.dropWhile_cons, hc]
  | cons a pres ih =>
    intro c mid h hc
    simp only [List.cons_append, List.dropWhile_cons, h a (by simp)]
    simp only [if_true]
    exact ih c mid (fun x hx => h x (by simp [hx])) hc

theorem fieldOne_decomp (pre : List Char) (c : Char) (mid : List Char)
    (hpre : ∀ x ∈ pre, isSepCh x = false) (hc : isSepCh c = true) :
    fieldOne (pre ++ c :: mid) =
      mid.takeWhile (fun x => !(isSepCh x)) := by
  unfold fieldOne
  rw [dropWhile_prefix_true (fun x => !(isSepCh x)) pre c mid
    (fun x hx => by simp [hpre x hx]) (by simp [hc])]
  simp

/-- Claim C8 (counterexample): on a solution block whose single line is
`x - y answer: B`, tier one fails, the inline tier fires, but the split is
taken at the first separator of the whole line (the dash before `y`), not at
the separator following `answer`, so the extracted answer is `y answer`
rather than `B`. -/
theorem c8_counterexample :
    (extractAnswerInfo ["x - y answer: B".toList]).answer =
      some ("y answer".toList) ∧
    ¬ (extractAnswerInfo ["x - y answer: B".toList]).answer =
      some ("B".toList) := by decide

/-- Claim C8 (amended): when no line matches the tier-one indicator and line
`i` is the first line containing `answer` followed by a colon or dash, the
answer is the normalized segment of line `i` strictly between its first
colon-or-dash and the next one (or the end of the line), and the notes are
the normalized join of the lines after line `i` (absent when empty). -/
theorem c8_amended (lines : List (List Char)) (i : Nat) (pre mid : List Char)
    (c : Char)
    (h1 : ∀ l ∈ lines, (matchIndicator (jsTrim l)).isSome = false)
    (h2 : ∀ k, k < i → inlineAnsTest (lines.getD k []) = false)
    (h3 : i < lines.length)
    (h4 : inlineAnsTest (lines.getD i []) = true)
    (h5 : lines.getD i [] = pre ++ c :: mid)
    (h6 : ∀ x ∈ pre, isSepCh x = false)
    (h7 : isSepCh c = true) :
    (extractAnswerInfo lines).answer =
      some (normalizeTextBlock (mid.takeWhile (fun x => !(isSepCh x)))) ∧
    (extractAnswerInfo lines).notes =
      emptyToNone (normalizeTextBlock (joinWith '\n' (lines.drop (i + 1)))) := by
  have e1 : List.findIdx? (fun l => (matchIndicator (jsTrim l)).isSome) lines = none :=
    findIdx?_none lines 0 h1
  have e2 : List.findIdx? inlineAnsTest lines = some i := by
    have := findIdx?_some [] lines i 0 h2 h3 h4
    simpa using this
  simp only [extractAnswerInfo, e1, e2]
  constructor
  · rw [h5, fieldOne_decomp pre c mid h6 h7]
  · trivial

/-- Claim C8 (witness). -/
theorem c8_witness :
    (extractAnswerInfo ["The answer: B".toList, "note".toList]).answer =
      some (normalizeTextBlock ((" B".toList).takeWhile (fun x => !(isSepCh x)))) ∧
    (extractAnswerInfo ["The answer: B".toList, "note".toList]).notes =
      emptyToNone (normalizeTextBlock
        (joinWith '\n' (["The answer: B".toList, "note".toList].drop 1))) :=
  c8_amended ["The answer: B".toList, "note".toList] 0 ("The answer".toList)
    (" B".toList) ':' (by decide) (by decide) (by decide) (by decide)
    (by decide) (by decide) (by decide)

theorem mem_addUniqueTok {acc : List (List Char)} {x z : List Char}
    (h : z ∈ addUniqueTok acc x) : z ∈ acc ∨ z = x := by
  unfold addUniqueTok at h
  split at h
  · exact Or.inl h
  · rcases List.mem_append.mp h with h2 | h2
    · exact Or.inl h2
    · simp at h2
      exact Or.inr h2

theorem mem_quizTokens_aux :
    ∀ (l acc : List (List Char)) {z : List Char},
      z ∈ l.foldl addUniqueTok acc → z ∈ acc ∨ z ∈ l := by
  intro l
  induction l with
  | nil => intro acc z h; exact Or.inl h
  | cons x xs ih =>
    intro acc z h
    rcases ih _ h with hin | hin
    · rcases mem_addUniqueTok hin with h2 | rfl
      · exact Or.inl h2
      · right; simp
    · right; simp [hin]

theorem mem_quizTokens {z : List Char} {s : List Char}
    (h : z ∈ quizTokens s) : z ∈ splitCh ' ' s := by
  rcases mem_quizTokens_aux (splitCh ' ' s) [] h with h2 | h2
  · simp at h2
  · exact h2

theorem noTwoSp_cons (a : Char) (l : List Char) :
    noTwoSp (a :: l) = true ↔
      ((l.head? = some ' ' → a ≠ ' ')) ∧ noTwoSp l = true := by
  cases l with
  | nil => simp [noTwoSp]
  | cons b t =>
    simp only [noTwoSp, Bool.and_eq_true, Bool.not_eq_true, List.head?_cons]
    constructor
    · rintro ⟨h1, h2⟩
      refine ⟨?_, h2⟩
      intro hb
      injection hb with hb
      subst hb
      intro ha
      subst ha
      simp at h1
    · rintro ⟨h1, h2⟩
      refine ⟨?_, h2⟩
      by_cases ha : a = ' '
      · by_cases hb : b = ' '
        · exact absurd ha (h1 (by rw [hb]))
        · subst ha
          simp [hb]
      · simp [ha]

theorem noTwoSp_tail {a : Char} {l : List Char}
    (h : noTwoSp (a :: l) = true) : noTwoSp l = true :=
  ((noTwoSp_cons a l).mp h).2

theorem collapse_head_not_sp (p : Char → Bool) (hp : p ' ' = true) :
    ∀ (l : List Char) (c : Char),
      (collapseRunsAux p true l).head? = some c → c ≠ ' ' := by
  intro l
  induction l with
  | nil => intro c h; simp [collapseRunsAux] at h
  | cons d ds ih =>
    intro c h
    simp only [collapseRunsAux] at h
    by_cases hd : p d = true
    · rw [if_pos hd] at h
      exact ih c h
    · rw [if_neg hd, List.head?_cons] at h
      injection h with h
      subst h
      intro hc
      subst hc
      exact hd hp

theorem collapse_noTwoSp (p : Char → Bool) (hp : p ' ' = true) :
    ∀ (l : List Char) (b : Bool),
      noTwoSp (collapseRunsAux p b l) = true := by
  intro l
  induction l with
  | nil => intro b; rfl
  | cons c cs ih =>
    intro b
    simp only [collapseRunsAux]
    by_cases hc : p c = true
    · rw [if_pos hc]
      cases b
      · simp only [if_neg (by simp : ¬ false = true)]
        rw [noTwoSp_cons]
        refine ⟨?_, ih true⟩
        intro hh
        exact absurd rfl (collapse_head_not_sp p hp cs ' ' hh)
      · simp only [if_pos rfl]
        exact ih true
    · rw [if_neg hc]
      rw [noTwoSp_cons]
      refine ⟨?_, ih false⟩
      intro _ hceq
      subst hceq
      exact hc hp

theorem jsTrimRight_head :
    ∀ l : List Char, jsTrimRight l = [] ∨ (jsTrimRight l).head? = l.head? := by
  intro l
  cases l with
  | nil => exact Or.inl rfl
  | cons c cs =>
    cases h : jsTrimRight cs with
    | nil =>
      by_cases hc : jsWs c = true
      · left
        simp [jsTrimRight, h, hc]
      · right
        simp [jsTrimRight, h, hc]
    | cons t ts =>
      right
      simp [jsTrimRight, h]

theorem noTwoSp_jsTrimRight :
    ∀ l : List Char, noTwoSp l = true → noTwoSp (jsTrimRight l) = true := by
  intro l
  induction l with
  | nil => intro _; rfl
  | cons c cs ih =>
    intro h
    obtain ⟨himp, htail⟩ := (noTwoSp_cons c cs).mp h
    cases h2 : jsTrimRight cs with
    | nil =>
      simp only [jsTrimRight, h2]
      split <;> rfl
    | cons t ts =>
      simp only [jsTrimRight, h2]
      rw [noTwoSp_cons]
      have hres : noTwoSp (t :: ts) = true := by
        rw [← h2]
        exact ih htail
      refine ⟨?_, hres⟩
      intro hh
      rcases jsTrimRight_head cs with h3 | h3
      · rw [h3] at h2
        cases h2
      · rw [h2] at h3
        exact himp (h3 ▸ hh)

theorem noTwoSp_dropWhile (q : Char → Bool) :
    ∀ l : List Char, noTwoSp l = true → noTwoSp (l.dropWhile q) = true := by
  intro l
  induction l with
  | nil => intro _; rfl
  | cons c cs ih =>
    intro h
    rw [List.dropWhile_cons]
    split
    · exact ih (noTwoSp_tail h)
    · exact h

theorem dropWhile_head_false (q : Char → Bool) :
    ∀ l : List Char, l.dropWhile q = [] ∨
      ∃ c t, l.dropWhile q = c :: t ∧ q c = false := by
  intro l
  induction l with
  | nil => exact Or.inl rfl
  | cons c cs ih =>
    rw [List.dropWhile_cons]
    by_cases hc : q c = true
    · rw [if_pos hc]
      exact ih
    · rw [if_neg hc]
      right
      exact ⟨c, cs, rfl, by simpa using hc⟩

theorem jsTrimRight_getLast :
    ∀ (l : List Char) (c : Char),
      (jsTrimRight l).getLast? = some c → jsWs c = false := by
  intro l
  induction l with
  | nil => intro c h; simp [jsTrimRight] at h
  | cons a cs ih =>
    intro c h
    cases h2 : jsTrimRight cs with
    | nil =>
      simp only [jsTrimRight, h2] at h
      by_cases ha : jsWs a = true
      · rw [if_pos ha] at h
        simp at h
      · rw [if_neg ha] at h
        simp only [List.getLast?_singleton] at h
        injection h with h
        subst h
        simpa using ha
    | cons t ts =>
      simp only [jsTrimRight, h2] at h
      rw [List.getLast?_cons_cons] at h
      rw [← h2] at h
      exact ih c h

theorem splitCh_ne_nil (sep : Char) : ∀ l : List Char, splitCh sep l ≠ [] := by
  intro l
  cases l with
  | nil => simp [splitCh]
  | cons c cs =>
    simp only [splitCh]
    split
    · simp
    · cases h : splitCh sep cs <;> simp

theorem splitCh_sp_pieces :
    ∀ l : List Char, noTwoSp l = true →
      (∀ c, l.getLast? = some c → c ≠ ' ') →
      (∀ t ∈ (splitCh ' ' l).tail, t ≠ []) ∧
      ((splitCh ' ' l).head? = some [] → l.head? = some ' ' ∨ l = []) := by
  intro l
  induction l with
  | nil =>
    intro _ _
    refine ⟨?_, ?_⟩
    · intro t ht
      simp [splitCh] at ht
    · intro _
      exact Or.inr rfl
  | cons c cs ih =>
    intro hnt hlast
    by_cases hc : c = ' '
    · subst hc
      rw [show splitCh ' ' (' ' :: cs) = [] :: splitCh ' ' cs by simp [splitCh]]
      constructor
      · intro t ht
        simp only [List.tail_cons] at ht
        by_cases hcs : cs = []
        · subst hcs
          exact absurd rfl (hlast ' ' (by simp))
        · have hlast2 : ∀ d, cs.getLast? = some d → d ≠ ' ' := by
            intro d hd
            refine hlast d ?_
            obtain ⟨b, L, rfl⟩ := List.exists_cons_of_ne_nil hcs
            rw [List.getLast?_cons_cons]
            exact hd
          obtain ⟨hall, hhead⟩ := ih (noTwoSp_tail hnt) hlast2
          obtain ⟨h0, r0, hsp⟩ := List.exists_cons_of_ne_nil (splitCh_ne_nil ' ' cs)
          rw [hsp] at ht
          rcases List.mem_cons.mp ht with rfl | htr
          · intro hteq
            subst hteq
            rcases hhead (by rw [hsp]; rfl) with hh | hh
            · obtain ⟨himp, _⟩ := (noTwoSp_cons ' ' cs).mp hnt
              exact himp hh rfl
            · exact hcs hh
          · exact hall t (by rw [hsp]; exact htr)
      · intro _
        left
        rfl
    · obtain ⟨h0, r0, hsp⟩ := List.exists_cons_of_ne_nil (splitCh_ne_nil ' ' cs)
      rw [show splitCh ' ' (c :: cs) = (c :: h0) :: r0 by simp [splitCh, hc, hsp]]
      constructor
      · intro t ht
        simp only [List.tail_cons] at ht
        by_cases hcs : cs = []
        · subst hcs
          simp [splitCh] at hsp
          rw [hsp.2] at ht
          simp at ht
        · have hlast2 : ∀ d, cs.getLast? = some d → d ≠ ' ' := by
            intro d hd
            refine hlast d ?_
            obtain ⟨b, L, rfl⟩ := List.exists_cons_of_ne_nil hcs
            rw [List.getLast?_cons_cons]
            exact hd
          obtain ⟨hall, _⟩ := ih (noTwoSp_tail hnt) hlast2
          exact hall t (by rw [hsp]; exact ht)
      · intro hh
        simp at hh

theorem normFz_token_ne_nil {s : List Char} (hs : normFz s ≠ []) :
    ∀ t ∈ splitCh ' ' (normFz s), t ≠ [] := by
  have h1 : noTwoSp (normFz s) = true := by
    unfold normFz jsTrim
    exact noTwoSp_jsTrimRight _
      (noTwoSp_dropWhile _ _ (collapse_noTwoSp _ (by decide) _ false))
  have h2 : ∀ c, (normFz s).getLast? = some c → c ≠ ' ' := by
    intro c hcl
    have hws : jsWs c = false := jsTrimRight_getLast _ c hcl
    intro hceq
    subst hceq
    simp [jsWs] at hws
  have h3 : ∀ c, (normFz s).head? = some c → c ≠ ' ' := by
    intro c hhead
    rcases jsTrimRight_head
        ((collapseRuns (fun c => !(isLowAlnum c)) (s.map lowerA)).dropWhile jsWs)
      with hnil | hh
    · exact absurd hnil hs
    · rw [show (normFz s).head? =
          ((collapseRuns (fun c => !(isLowAlnum c))
            (s.map lowerA)).dropWhile jsWs).head? from hh] at hhead
      rcases dropWhile_head_false jsWs
          (collapseRuns (fun c => !(isLowAlnum c)) (s.map lowerA)) with hn | hex
      · rw [hn] at hhead
        cases hhead
      · obtain ⟨d, t, hdt, hdws⟩ := hex
        rw [hdt, List.head?_cons] at hhead
        injection hhead with hhead
        subst hhead
        intro hceq
        subst hceq
        simp [jsWs] at hdws
  obtain ⟨h0, r0, hsp⟩ := List.exists_cons_of_ne_nil (splitCh_ne_nil ' ' (normFz s))
  have hmain := splitCh_sp_pieces (normFz s) h1 h2
  intro t ht hteq
  subst hteq
  rw [hsp] at ht
  rcases List.mem_cons.mp ht with heq | htr
  · rcases hmain.2 (by rw [hsp, ← heq]; rfl) with hh | hh
    · exact h3 ' ' hh rfl
    · exact hs hh
  · exact hmain.1 [] (by rw [hsp]; exact htr) rfl

theorem specScore_nonneg (aTok : List (List Char)) (o : List Char) :
    0 ≤ specScore aTok o := by
  unfold specScore
  split
  · exact le_refl 0
  · unfold optionScore
    positivity

theorem denCount_pos (onorm : List Char) : 1 ≤ denCount onorm :=
  le_max_left 1 _

theorem le_foldlS (aTok : List (List Char)) :
    ∀ (os : List (List Char)) (x : ℚ),
      x ≤ os.foldl (fun m o => max m (specScore aTok o)) x := by
  intro os
  induction os with
  | nil => intro x; simp
  | cons o os ih =>
    intro x
    rw [List.foldl_cons]
    exact le_trans (le_max_left _ _) (ih _)

theorem foldlS_const (aTok : List (List Char)) :
    ∀ (os : List (List Char)) (x : ℚ),
      (∀ o ∈ os, specScore aTok o ≤ x) →
      os.foldl (fun m o => max m (specScore aTok o)) x = x := by
  intro os
  induction os with
  | nil => intro x _; rfl
  | cons o os ih =>
    intro x h
    rw [List.foldl_cons, max_eq_left (h o (by simp))]
    exact ih x (fun o2 ho2 => h o2 (by simp [ho2]))

theorem findIdx_map {α β : Type} (f : α → β) (p : β → Bool) :
    ∀ l : List α, (l.map f).findIdx p = l.findIdx (fun x => p (f x)) := by
  intro l
  induction l with
  | nil => rfl
  | cons x xs ih => simp [List.findIdx_cons, ih]

theorem cross_lt {bn bd inter den : Nat} (hbd : 1 ≤ bd) (hden : 1 ≤ den) :
    (bn * den < inter * bd) ↔
      ((bn : ℚ) / (bd : ℚ) < (inter : ℚ) / (den : ℚ)) := by
  rw [div_lt_div_iff₀ (show (0:ℚ) < bd by exact_mod_cast hbd)
    (show (0:ℚ) < den by exact_mod_cast hden)]
  constructor <;> intro h <;> exact_mod_cast h

theorem cross_thresh {bn bd : Nat} (hbd : 1 ≤ bd) :
    (7 * bd ≤ 20 * bn) ↔ ((7 : ℚ) / 20 ≤ (bn : ℚ) / (bd : ℚ)) := by
  rw [div_le_div_iff₀ (show (0:ℚ) < 20 by norm_num)
    (show (0:ℚ) < bd by exact_mod_cast hbd)]
  rw [mul_comm ((bn : ℚ)) (20 : ℚ)]
  constructor <;> intro h <;> exact_mod_cast h

theorem fuzzyAux_characterize (aTok : List (List Char)) :
    ∀ (os : List (List Char)) (n : Nat) (bi : Int) (bn bd : Nat), 1 ≤ bd →
      (((fuzzyAux aTok os n bi bn bd).2.1 : ℚ) /
          ((fuzzyAux aTok os n bi bn bd).2.2 : ℚ) =
        os.foldl (fun m o => max m (specScore aTok o)) ((bn : ℚ) / (bd : ℚ))) ∧
      1 ≤ (fuzzyAux aTok os n bi bn bd).2.2 ∧
      (fuzzyAux aTok os n bi bn bd).1 =
        (if os.foldl (fun m o => max m (specScore aTok o))
              ((bn : ℚ) / (bd : ℚ)) ≤ (bn : ℚ) / (bd : ℚ)
         then bi
         else (n : Int) + os.findIdx (fun o =>
            decide (os.foldl (fun m o2 => max m (specScore aTok o2))
              ((bn : ℚ) / (bd : ℚ)) ≤ specScore aTok o))) := by
  intro os
  induction os with
  | nil =>
    intro n bi bn bd hbd
    refine ⟨rfl, hbd, ?_⟩
    simp [fuzzyAux]
  | cons o os ih =>
    intro n bi bn bd hbd
    have hq0 : (0 : ℚ) ≤ (bn : ℚ) / (bd : ℚ) := by positivity
    by_cases ho : normFz o = []
    · have hfz : fuzzyAux aTok (o :: os) n bi bn bd =
          fuzzyAux aTok os (n + 1) bi bn bd := by
        simp [fuzzyAux, ho]
      have hS : specScore aTok o = 0 := by simp [specScore, ho]
      have hmax : max ((bn : ℚ) / (bd : ℚ)) (specScore aTok o) =
          (bn : ℚ) / (bd : ℚ) := by
        rw [hS]
        exact max_eq_left hq0
      obtain ⟨ih1, ih2, ih3⟩ := ih (n + 1) bi bn bd hbd
      rw [hfz, List.foldl_cons, hmax]
      refine ⟨ih1, ih2, ?_⟩
      rw [ih3]
      by_cases hcond : os.foldl (fun m o => max m (specScore aTok o))
          ((bn : ℚ) / (bd : ℚ)) ≤ (bn : ℚ) / (bd : ℚ)
      · rw [if_pos hcond, if_pos hcond]
      · rw [if_neg hcond, if_neg hcond]
        have hM0 : ¬ (os.foldl (fun m o2 => max m (specScore aTok o2))
            ((bn : ℚ) / (bd : ℚ)) ≤ specScore aTok o) := by
          rw [hS]
          intro hle
          exact hcond (le_trans hle hq0)
        rw [List.findIdx_cons]
        simp only [decide_eq_false hM0, cond_false]
        push_cast
        omega
    · by_cases hcmp : bn * denCount (normFz o) < interCount aTok (normFz o) * bd
      · have hfz : fuzzyAux aTok (o :: os) n bi bn bd =
            fuzzyAux aTok os (n + 1) (n : Int) (interCount aTok (normFz o))
              (denCount (normFz o)) := by
          simp [fuzzyAux, ho, hcmp]
        have hSo : specScore aTok o =
            (interCount aTok (normFz o) : ℚ) / (denCount (normFz o) : ℚ) := by
          simp [specScore, ho, optionScore]
        have hden1 : 1 ≤ denCount (normFz o) := denCount_pos _
        have hlt : (bn : ℚ) / (bd : ℚ) < specScore aTok o := by
          rw [hSo]
          exact (cross_lt hbd hden1).mp hcmp
        have hmax : max ((bn : ℚ) / (bd : ℚ)) (specScore aTok o) =
            specScore aTok o := max_eq_right (le_of_lt hlt)
        obtain ⟨ih1, ih2, ih3⟩ := ih (n + 1) (n : Int)
          (interCount aTok (normFz o)) (denCount (normFz o)) hden1
        rw [← hSo] at ih1 ih3
        rw [hfz, List.foldl_cons, hmax]
        refine ⟨ih1, ih2, ?_⟩
        rw [ih3]
        have hMge : specScore aTok o ≤
            os.foldl (fun m o2 => max m (specScore aTok o2)) (specScore aTok o) :=
          le_foldlS aTok os _
        have hnocond : ¬ (os.foldl (fun m o2 => max m (specScore aTok o2))
            (specScore aTok o) ≤ (bn : ℚ) / (bd : ℚ)) := by
          intro hle
          exact lt_irrefl _ (lt_of_lt_of_le hlt (le_trans hMge hle))
        rw [if_neg hnocond, List.findIdx_cons]
        by_cases hMS : os.foldl (fun m o2 => max m (specScore aTok o2))
            (specScore aTok o) ≤ specScore aTok o
        · rw [if_pos hMS]
          simp only [decide_eq_true hMS, cond_true]
          simp
        · rw [if_neg hMS]
          simp only [decide_eq_false hMS, cond_false]
          push_cast
          omega
      · have hfz : fuzzyAux aTok (o :: os) n bi bn bd =
            fuzzyAux aTok os (n + 1) bi bn bd := by
          simp [fuzzyAux, ho, hcmp]
        have hSo : specScore aTok o =
            (interCount aTok (normFz o) : ℚ) / (denCount (normFz o) : ℚ) := by
          simp [specScore, ho, optionScore]
        have hden1 : 1 ≤ denCount (normFz o) := denCount_pos _
        have hge : specScore aTok o ≤ (bn : ℚ) / (bd : ℚ) := by
          rw [hSo]
          exact le_of_not_lt (fun hl => hcmp ((cross_lt hbd hden1).mpr hl))
        have hmax : max ((bn : ℚ) / (bd : ℚ)) (specScore aTok o) =
            (bn : ℚ) / (bd : ℚ) := max_eq_left hge
        obtain ⟨ih1, ih2, ih3⟩ := ih (n + 1) bi bn bd hbd
        rw [hfz, List.foldl_cons, hmax]
        refine ⟨ih1, ih2, ?_⟩
        rw [ih3]
        by_cases hcond : os.foldl (fun m o => max m (specScore aTok o))
            ((bn : ℚ) / (bd : ℚ)) ≤ (bn : ℚ) / (bd : ℚ)
        · rw [if_pos hcond, if_pos hcond]
        · rw [if_neg hcond, if_neg hcond]
          have hM0 : ¬ (os.foldl (fun m o2 => max m (specScore aTok o2))
              ((bn : ℚ) / (bd : ℚ)) ≤ specScore aTok o) := by
            intro hle
            exact hcond (le_trans hle hge)
          rw [List.findIdx_cons]
          simp only [decide_eq_false hM0, cond_false]
          push_cast
          omega

theorem interCount_nilTok {o : List Char} (ho : normFz o ≠ []) :
    interCount [([] : List Char)] (normFz o) = 0 := by
  unfold interCount
  rw [show ((quizTokens (normFz o)).filter
      (fun t => decide (t ∈ [([] : List Char)]))) = [] from ?_]
  · rfl
  · rw [List.filter_eq_nil_iff]
    intro t ht
    simp only [List.mem_singleton, decide_eq_true_eq]
    exact normFz_token_ne_nil ho t (mem_quizTokens ht)

theorem fuzzy_eq_spec (a : List Char) (opts : List (List Char))
    (hne : opts ≠ []) :
    fuzzyMatchAnswerToOptions (some a) (some opts) = fuzzySpec a opts := by
  by_cases ha : a = []
  · subst ha
    have hcode : fuzzyMatchAnswerToOptions (some ([] : List Char)) (some opts) =
        none := by
      simp [fuzzyMatchAnswerToOptions]
    rw [hcode]
    have haTok : quizTokens (normFz ([] : List Char)) = [([] : List Char)] := rfl
    have hzero : ∀ o ∈ opts,
        specScore (quizTokens (normFz ([] : List Char))) o = 0 := by
      intro o _
      unfold specScore
      split
      · rfl
      · rename_i ho
        unfold optionScore
        rw [haTok, interCount_nilTok ho]
        simp
    simp only [fuzzySpec]
    have hM : ((opts.map (specScore (quizTokens (normFz ([] : List Char))))).foldl
        max 0) = 0 := by
      rw [List.foldl_map]
      exact foldlS_const _ opts 0 (fun o ho => le_of_eq (hzero o ho))
    rw [hM]
    rw [if_neg (by norm_num)]
  · have hguard : ¬ (a = [] ∨ opts.length = 0) := by
      push_neg
      exact ⟨ha, by simpa [List.length_eq_zero] using hne⟩
    obtain ⟨hfrac, hbd, hidx⟩ :=
      fuzzyAux_characterize (quizTokens (normFz a)) opts 0 (-1) 0 1 (le_refl 1)
    have h01 : (((0 : Nat) : ℚ) / ((1 : Nat) : ℚ)) = 0 := by norm_num
    rw [h01] at hfrac hidx
    have hm : ((opts.map (specScore (quizTokens (normFz a)))).foldl max 0) =
        opts.foldl (fun m o => max m (specScore (quizTokens (normFz a)) o)) 0 :=
      List.foldl_map _ _ _ _
    simp only [fuzzyMatchAnswerToOptions, fuzzySpec]
    rw [if_neg hguard, hm]
    rcases le_or_lt ((7 : ℚ) / 20)
        (opts.foldl (fun m o => max m (specScore (quizTokens (normFz a)) o)) 0)
      with hth | hth
    · have hcond1 : 7 * (fuzzyAux (quizTokens (normFz a)) opts 0 (-1) 0 1).2.2 ≤
          20 * (fuzzyAux (quizTokens (normFz a)) opts 0 (-1) 0 1).2.1 :=
        (cross_thresh hbd).mpr (by rw [hfrac]; exact hth)
      have hnle : ¬ (opts.foldl
          (fun m o => max m (specScore (quizTokens (normFz a)) o)) 0 ≤ 0) :=
        not_le.mpr (lt_of_lt_of_le (by norm_num) hth)
      have hidx2 : (fuzzyAux (quizTokens (normFz a)) opts 0 (-1) 0 1).1 =
          (0 : Int) + (opts.findIdx (fun o =>
            decide (opts.foldl
              (fun m o2 => max m (specScore (quizTokens (normFz a)) o2)) 0 ≤
              specScore (quizTokens (normFz a)) o)) : Int) := by
        rw [hidx, if_neg hnle]
        norm_num
      have hge0 : 0 ≤ (fuzzyAux (quizTokens (normFz a)) opts 0 (-1) 0 1).1 := by
        rw [hidx2]
        positivity
      rw [if_pos ⟨hcond1, hge0⟩, if_pos hth]
      rw [hidx2]
      rw [findIdx_map]
      simp

    · have hncond : ¬ (7 * (fuzzyAux (quizTokens (normFz a)) opts 0 (-1) 0 1).2.2 ≤
          20 * (fuzzyAux (quizTokens (normFz a)) opts 0 (-1) 0 1).2.1 ∧
          0 ≤ (fuzzyAux (quizTokens (normFz a)) opts 0 (-1) 0 1).1) := by
        rintro ⟨h1, _⟩
        have := (cross_thresh hbd).mp h1
        rw [hfrac] at this
        exact absurd this (not_le.mpr hth)
      rw [if_neg hncond, if_neg (not_le.mpr hth)]

/-- Claim C4: fuzzy matching behaves as the specification describes:
normalize both sides, tokenize on spaces, score each option by the
token-overlap ratio guarded against division by zero, pick the option with
the strictest-greatest score, and accept exactly at threshold seven
twentieths; in particular `Amazon S3 bucket` against the three options
selects index 1. -/
theorem c4_fuzzy_spec :
    (∀ (a : List Char) (opts : List (List Char)), opts ≠ [] →
      fuzzyMatchAnswerToOptions (some a) (some opts) = fuzzySpec a opts) ∧
    fuzzyMatchAnswerToOptions (some ("Amazon S3 bucket".toList))
      (some ["EBS volume".toList, "S3 bucket".toList, "EFS share".toList]) =
      some [1] :=
  ⟨fuzzy_eq_spec, by decide⟩

/-- Claim C4 (witness). -/
theorem c4_witness :
    fuzzyMatchAnswerToOptions (some ("s3".toList)) (some ["s3".toList]) =
      fuzzySpec ("s3".toList) ["s3".toList] :=
  c4_fuzzy_spec.1 ("s3".toList) ["s3".toList] (by decide)

/-- Claim C2 (counterexample): on the exact inputs of the claim, the emitted
item's `answer` field is not `B`: since the extracted answer `B` is shorter
than two characters, the reconciler replaces it with the synthesized
human-readable text. -/
theorem c2_counterexample :
    ¬ (∃ it ∈ mergedItems
          ("5] Which service provides object storage?\nA. EBS\nB. S3\nC. EFS".toList)
          ("5] ans- B\nS3 is purpose-built object storage.".toList),
        it.id = 5 ∧
        it.options = some ["EBS".toList, "S3".toList, "EFS".toList] ∧
        it.correct = some [1] ∧ it.qtype = some QType.single ∧
        it.answer = some ("B".toList)) := by decide

/-- Claim C2 (amended): on those inputs the output is exactly one item with
id 5, options EBS, S3, EFS, correct index 1, type single, answer `B. S3`
(synthesized from the correct option because the raw answer `B` is under two
characters), and notes containing `purpose-built object storage`. -/
theorem c2_amended :
    mergedItems
        ("5] Which service provides object storage?\nA. EBS\nB. S3\nC. EFS".toList)
        ("5] ans- B\nS3 is purpose-built object storage.".toList) =
      [⟨5, "Which service provides object storage?".toList,
        some ("B. S3".toList),
        some ("S3 is purpose-built object storage.".toList),
        some ["EBS".toList, "S3".toList, "EFS".toList], some [1],
        some QType.single⟩] ∧
    ("S3 is ".toList) ++ ("purpose-built object storage".toList) ++
        (".".toList) =
      ("S3 is purpose-built object storage.".toList) :=
  ⟨by decide, by decide⟩

end Quiz
